import Mathlib

/-!
Verification of the LSB steganography codec.

This file gives a shallow embedding of the image steganography codec:
the current header-based format (magic token, 4-byte big-endian length,
payload plus delimiter, written into the least significant bits of the
non-alpha samples of an RGBA raster) together with its legacy fallback
decoder, and the earlier header-less legacy encoder.

Modelling conventions:
* a raster buffer is a `List Nat` of 8-bit samples (each sample is a byte,
  index `i` with `i % 4 = 3` is the alpha channel);
* text is a `List Char` of Unicode scalar values;
* `TextEncoder.encode` is modelled by `utf8Encode`, and the non-fatal
  `TextDecoder.decode` (which substitutes U+FFFD for invalid input rather
  than throwing) by `utf8DecodeReplace`;
* thrown errors are modelled with `Except StegoError`;
* the byte operation `(sample & 0xFE) | bit` is written `2 * (d / 2) + b`,
  and `sample & 1` is written `d % 2`, which agree with the bitwise forms
  on 8-bit samples and bits;
* bounded recursion is expressed with an explicit fuel argument (always
  instantiated with an amount that is provably sufficient), so that every
  definition is structurally recursive and fully computable.
-/

/-- Errors thrown by the codec (the thrown `Error` messages of the source). -/
inductive StegoError where
  | capacityExceeded
  | noMessageFound
  | invalidLength
  | failedExtract
  deriving DecidableEq, Repr

instance {ε α : Type} [DecidableEq ε] [DecidableEq α] : DecidableEq (Except ε α) :=
  fun a b =>
    match a, b with
    | .ok x, .ok y =>
      match decEq x y with
      | isTrue h => isTrue (by rw [h])
      | isFalse h => isFalse (by intro hc; cases hc; exact h rfl)
    | .error x, .error y =>
      match decEq x y with
      | isTrue h => isTrue (by rw [h])
      | isFalse h => isFalse (by intro hc; cases hc; exact h rfl)
    | .ok _, .error _ => isFalse (by intro hc; cases hc)
    | .error _, .ok _ => isFalse (by intro hc; cases hc)

/-- The eight binary digits of a byte, most significant first.  This models
`byte.toString(2).padStart(8, '0')` for a byte value below 256. -/
def byteToBits (b : Nat) : List Nat :=
  [b / 128 % 2, b / 64 % 2, b / 32 % 2, b / 16 % 2, b / 8 % 2, b / 4 % 2, b / 2 % 2, b % 2]

/-- Reassemble a most-significant-first digit list into a number: models
`parseInt(bits, 2)` (also on groups shorter than 8 digits). -/
def bitsToNat (bits : List Nat) : Nat :=
  bits.foldl (fun a b => 2 * a + b) 0

/-- The concatenated bits of a byte sequence: models the loop
`for (...) binary += bytes[i].toString(2).padStart(8, '0')`. -/
def bytesToBits : List Nat → List Nat
  | [] => []
  | b :: bs => byteToBits b ++ bytesToBits bs

/-- Fuel-driven helper for `chunk8`. -/
def chunk8Aux : Nat → List Nat → List (List Nat)
  | _, [] => []
  | 0, _ :: _ => []
  | fuel + 1, b :: bs => (b :: bs.take 7) :: chunk8Aux fuel (bs.drop 7)

/-- Split a bit string into groups of (up to) eight bits, the trailing group
possibly shorter: models `binaryText.match(/.{1,8}/g)` (an empty string gives
the empty list, matching the `null` result). -/
def chunk8 (bits : List Nat) : List (List Nat) :=
  chunk8Aux bits.length bits

/-- Write a bit list into the least significant bits of the samples, walking
the buffer in index order and skipping the alpha channel (`(i+1) % 4 = 0`);
once the bits are exhausted the remaining samples are returned unchanged.
`2 * (d / 2) + b` is the byte operation `(d & 0xFE) | b`. -/
def writeBits : List Nat → List Nat → Nat → List Nat
  | [], _, _ => []
  | d :: ds, [], _ => d :: ds
  | d :: ds, b :: bs, i =>
    if (i + 1) % 4 = 0 then d :: writeBits ds (b :: bs) (i + 1)
    else (2 * (d / 2) + b) :: writeBits ds bs (i + 1)

/-- The least significant bits of all non-alpha samples, in buffer order
(`d % 2` is `d & 1`). -/
def usableLSBs : List Nat → Nat → List Nat
  | [], _ => []
  | d :: ds, i =>
    if (i + 1) % 4 = 0 then usableLSBs ds (i + 1)
    else d % 2 :: usableLSBs ds (i + 1)

/-- UTF-8 encoding of one Unicode scalar value: models `TextEncoder` on a
single character. -/
def utf8EncodeChar (c : Char) : List Nat :=
  let n := c.toNat
  if n < 128 then [n]
  else if n < 2048 then [192 + n / 64, 128 + n % 64]
  else if n < 65536 then [224 + n / 4096, 128 + n / 64 % 64, 128 + n % 64]
  else [240 + n / 262144, 128 + n / 4096 % 64, 128 + n / 64 % 64, 128 + n % 64]

/-- UTF-8 encoding of a text: models `new TextEncoder().encode(text)`. -/
def utf8Encode : List Char → List Nat
  | [] => []
  | c :: cs => utf8EncodeChar c ++ utf8Encode cs

/-- The U+FFFD replacement character emitted by a non-fatal `TextDecoder`. -/
def replChar : Char := Char.ofNat 65533

/-- Fuel-driven helper for `utf8DecodeReplace`, implementing the WHATWG
UTF-8 decoder with replacement: every invalid lead byte, out-of-range
continuation byte or truncated sequence produces U+FFFD, an out-of-range
continuation byte is reconsidered as a fresh lead byte, and the special
continuation ranges of lead bytes 0xE0, 0xED, 0xF0 and 0xF4 exclude
overlong forms, surrogates and values above 0x10FFFF. -/
def utf8DecodeAux : Nat → List Nat → List Char
  | _, [] => []
  | 0, _ :: _ => []
  | fuel + 1, b :: bs =>
    if b < 128 then Char.ofNat b :: utf8DecodeAux fuel bs
    else if b < 194 then replChar :: utf8DecodeAux fuel bs
    else if b < 224 then
      match bs with
      | [] => [replChar]
      | b1 :: r1 =>
        if 128 ≤ b1 ∧ b1 < 192 then
          Char.ofNat ((b - 192) * 64 + (b1 - 128)) :: utf8DecodeAux fuel r1
        else replChar :: utf8DecodeAux fuel (b1 :: r1)
    else if b < 240 then
      match bs with
      | [] => [replChar]
      | b1 :: r1 =>
        if (if b = 224 then 160 else 128) ≤ b1 ∧ b1 < (if b = 237 then 160 else 192) then
          match r1 with
          | [] => [replChar]
          | b2 :: r2 =>
            if 128 ≤ b2 ∧ b2 < 192 then
              Char.ofNat ((b - 224) * 4096 + (b1 - 128) * 64 + (b2 - 128)) :: utf8DecodeAux fuel r2
            else replChar :: utf8DecodeAux fuel (b2 :: r2)
        else replChar :: utf8DecodeAux fuel (b1 :: r1)
    else if b < 245 then
      match bs with
      | [] => [replChar]
      | b1 :: r1 =>
        if (if b = 240 then 144 else 128) ≤ b1 ∧ b1 < (if b = 244 then 144 else 192) then
          match r1 with
          | [] => [replChar]
          | b2 :: r2 =>
            if 128 ≤ b2 ∧ b2 < 192 then
              match r2 with
              | [] => [replChar]
              | b3 :: r3 =>
                if 128 ≤ b3 ∧ b3 < 192 then
                  Char.ofNat ((b - 240) * 262144 + (b1 - 128) * 4096 + (b2 - 128) * 64 + (b3 - 128))
                    :: utf8DecodeAux fuel r3
                else replChar :: utf8DecodeAux fuel (b3 :: r3)
            else replChar :: utf8DecodeAux fuel (b2 :: r2)
        else replChar :: utf8DecodeAux fuel (b1 :: r1)
    else replChar :: utf8DecodeAux fuel bs

/-- Non-fatal UTF-8 decoding: models `new TextDecoder('utf-8').decode(bytes)`
(which never throws; invalid input becomes U+FFFD). -/
def utf8DecodeReplace (bytes : List Nat) : List Char :=
  utf8DecodeAux bytes.length bytes

/-- Fatal UTF-8 decoding of a single byte: models
`new TextDecoder('utf-8', ... fatal ...).decode(new Uint8Array([b]))`,
which succeeds exactly on ASCII bytes. -/
def utf8DecodeFatalByte (b : Nat) : Option Char :=
  if b < 128 then some (Char.ofNat b) else none

namespace Stego

/-- The characters of the `DELIMITER` constant. -/
def delimChars : List Char := ['$', '$', 'E', 'N', 'D', '$', '$']

/-- The characters of the `MAGIC_HEADER` constant. -/
def magicChars : List Char := ['S', 'T', 'E', 'G', 'O', '1']

/-- The UTF-8 bytes of the magic header. -/
def magicBytes : List Nat := [83, 84, 69, 71, 79, 49]

/-- The four big-endian bytes written by `setUint32(0, n, false)`
(truncating to 32 bits). -/
def lengthBytesOf (n : Nat) : List Nat :=
  [n / 16777216 % 256, n / 65536 % 256, n / 256 % 256, n % 256]

/-- The capacity computation of the current codec:
`Math.floor((width*height*3 - (6+4)*8 - 7*8) / 8)` over JS numbers, which on
these integer inputs is exact floor division (hence `Int.fdiv`). -/
def calculateCapacity (width height : Nat) : Int :=
  Int.fdiv ((width * height * 3 : Int) - 80 - 56) 8

/-- The full framed byte sequence built by `encodeText`:
magic + 4-byte big-endian length of (message + delimiter) + message bytes. -/
def totalBytesOf (secretText : List Char) : List Nat :=
  utf8Encode magicChars
    ++ lengthBytesOf (utf8Encode (secretText ++ delimChars)).length
    ++ utf8Encode (secretText ++ delimChars)

/-- The current-format encoder `encodeText(imageData, secretText)`.
It frames the message, converts it to bits, rejects it when the bit count
exceeds `width * height * 3`, and otherwise writes the bits into the LSBs
of the non-alpha samples of a copy of the buffer. -/
def encodeText (data : List Nat) (width height : Nat) (secretText : List Char) :
    Except StegoError (List Nat) :=
  let binaryText := bytesToBits (totalBytesOf secretText)
  let maxBits := width * height * 3
  if maxBits < binaryText.length then .error .capacityExceeded
  else .ok (writeBits data binaryText 0)

/-- One step of the legacy scan: how a completed byte extends the
accumulated text (printable ASCII is appended directly, other nonzero
bytes go through a fatal single-byte UTF-8 decode with a
`String.fromCharCode` fallback, and a zero byte appends nothing). -/
def legacyStep (text : List Char) (charCode : Nat) : List Char :=
  if 32 ≤ charCode ∧ charCode ≤ 126 then text ++ [Char.ofNat charCode]
  else if 0 < charCode then
    match utf8DecodeFatalByte charCode with
    | some c => text ++ [c]
    | none => text ++ [Char.ofNat charCode]
  else text

/-- The byte-wise loop of `decodeLegacyFormat`: every completed 8-bit group
extends the text via `legacyStep`; after each byte the text is checked for
the trailing delimiter (returning the text with the delimiter stripped) and
against the 1,000,000-character safety ceiling; a trailing partial group is
never processed; running out of bits fails with `noMessageFound`. -/
def legacyScan : List (List Nat) → List Char → Except StegoError (List Char)
  | [], _ => .error .noMessageFound
  | chunk :: rest, text =>
    if chunk.length = 8 then
      let t := legacyStep text (bitsToNat chunk)
      if delimChars.isSuffixOf t then .ok (t.take (t.length - 7))
      else if 1000000 < t.length then .error .noMessageFound
      else legacyScan rest t
    else .error .noMessageFound

/-- The legacy fallback decoder `decodeLegacyFormat(imageData)`. -/
def decodeLegacyFormat (data : List Nat) : Except StegoError (List Char) :=
  legacyScan (chunk8 (usableLSBs data 0)) []

/-- The non-alpha LSB stream read by `decodeText`. -/
def dtUsable (data : List Nat) : List Nat :=
  usableLSBs data 0

/-- Phase-1 header extraction: the first `(6+4)*8 = 80` available bits,
regrouped into bytes. -/
def dtHeaderChunks (data : List Nat) : List (List Nat) :=
  chunk8 ((dtUsable data).take 80)

/-- The ten header bytes parsed from the phase-1 groups. -/
def dtExtracted (data : List Nat) : List Nat :=
  ((dtHeaderChunks data).take 10).map bitsToNat

/-- The decoded magic string (first six header bytes through the non-fatal
UTF-8 decoder). -/
def dtMagic (data : List Nat) : List Char :=
  utf8DecodeReplace ((dtExtracted data).take 6)

/-- The declared message length: header bytes 6..9 via
`getUint32(0, false)` (big-endian). -/
def dtMessageLength (data : List Nat) : Nat :=
  let lb := (dtExtracted data).drop 6
  lb.getD 0 0 * 16777216 + lb.getD 1 0 * 65536 + lb.getD 2 0 * 256 + lb.getD 3 0

/-- The sanity ceiling `Math.floor(data.length * 3 / (4 * 8))`. -/
def dtMaxPossibleLength (data : List Nat) : Nat :=
  data.length * 3 / 32

/-- Phase-2 re-extraction: the first `(10 + L) * 8` available bits,
regrouped into bytes. -/
def dtAllBytes (data : List Nat) : List (List Nat) :=
  chunk8 ((dtUsable data).take ((10 + dtMessageLength data) * 8))

/-- The payload bytes `allBytes.slice(10, 10 + L)` parsed into numbers. -/
def dtPayloadBytes (data : List Nat) : List Nat :=
  (((dtAllBytes data).drop 10).take (dtMessageLength data)).map bitsToNat

/-- The payload string decoded (non-fatally) from the payload bytes. -/
def dtMessage (data : List Nat) : List Char :=
  utf8DecodeReplace (dtPayloadBytes data)

/-- The current-format decoder `decodeText(imageData)`: extract the 80
header bits (failing with `noMessageFound` when fewer than ten groups
form); on a magic mismatch fall back to the legacy decoder; validate the
declared length against the buffer-derived ceiling and the absolute
10,000,000 cap (failing with `invalidLength`); re-extract
`(10 + L) * 8` bits (failing with `failedExtract` when no group forms);
decode the payload bytes and strip one trailing delimiter if present. -/
def decodeText (data : List Nat) : Except StegoError (List Char) :=
  if (dtHeaderChunks data).length < 10 then .error .noMessageFound
  else if dtMagic data ≠ magicChars then decodeLegacyFormat data
  else if dtMaxPossibleLength data < dtMessageLength data ∨ 10000000 < dtMessageLength data then
    .error .invalidLength
  else if (dtAllBytes data).isEmpty then .error .failedExtract
  else if delimChars.isSuffixOf (dtMessage data) then
    .ok ((dtMessage data).take ((dtMessage data).length - 7))
  else .ok (dtMessage data)

/-- Encode followed by decode, propagating an encode failure. -/
def roundTrip (data : List Nat) (width height : Nat) (secretText : List Char) :
    Except StegoError (List Char) :=
  match encodeText data width height secretText with
  | .ok encoded => decodeText encoded
  | .error e => .error e

end Stego

namespace Legacy

/-- Fuel-driven helper for `natBinDigits`. -/
def natBinDigitsAux : Nat → Nat → List Nat
  | 0, n => [n % 2]
  | fuel + 1, n => if n < 2 then [n] else natBinDigitsAux fuel (n / 2) ++ [n % 2]

/-- The binary digit string of a number, most significant first, with no
leading zeros (`n.toString(2)`; `0` gives the single digit `0`). -/
def natBinDigits (n : Nat) : List Nat :=
  natBinDigitsAux n n

/-- Left-pad a digit list with zeros to length eight
(`.padStart(8, '0')`; longer lists are returned unchanged). -/
def padStart8 (digits : List Nat) : List Nat :=
  List.replicate (8 - digits.length) 0 ++ digits

/-- The legacy `textToBinary`: every character contributes the 8-padded
binary digits of its UTF-16 code unit (`charCodeAt(0)`), so characters
above 255 contribute more than eight digits. -/
def textToBinary : List Char → List Nat
  | [] => []
  | c :: cs => padStart8 (natBinDigits c.toNat) ++ textToBinary cs

/-- The legacy capacity computation:
`Math.floor((width*height*3 - 7*8) / 8)` as exact floor division. -/
def calculateCapacity (width height : Nat) : Int :=
  Int.fdiv ((width * height * 3 : Int) - 56) 8

/-- The legacy encoder `encodeText(imageData, secretText)`: append the
delimiter, reject when the character count exceeds the capacity, and write
the concatenated code-unit bits into the non-alpha LSBs of a copy. -/
def encodeText (data : List Nat) (width height : Nat) (secretText : List Char) :
    Except StegoError (List Nat) :=
  let textWithDelimiter := secretText ++ Stego.delimChars
  let binaryText := textToBinary textWithDelimiter
  if calculateCapacity width height < (textWithDelimiter.length : Int) then
    .error .capacityExceeded
  else .ok (writeBits data binaryText 0)

end Legacy

/-! ### Basic properties of the bit-level machinery -/

theorem length_byteToBits (b : Nat) : (byteToBits b).length = 8 := rfl

theorem mem_byteToBits_lt_two {b x : Nat} (h : x ∈ byteToBits b) : x < 2 := by
  simp only [byteToBits, List.mem_cons, List.not_mem_nil, or_false] at h
  rcases h with h | h | h | h | h | h | h | h <;> omega

theorem bitsToNat_byteToBits {b : Nat} (h : b < 256) : bitsToNat (byteToBits b) = b := by
  simp only [bitsToNat, byteToBits, List.foldl]
  omega

theorem bytesToBits_append (a b : List Nat) :
    bytesToBits (a ++ b) = bytesToBits a ++ bytesToBits b := by
  induction a with
  | nil => rfl
  | cons x xs ih => simp [bytesToBits, ih]

theorem length_bytesToBits (bs : List Nat) : (bytesToBits bs).length = 8 * bs.length := by
  induction bs with
  | nil => rfl
  | cons x xs ih => simp [bytesToBits, ih, length_byteToBits]; omega

theorem take_bytesToBits (bs : List Nat) (k : Nat) :
    (bytesToBits bs).take (8 * k) = bytesToBits (bs.take k) := by
  induction bs generalizing k with
  | nil => simp [bytesToBits]
  | cons x xs ih =>
    cases k with
    | zero => simp [bytesToBits]
    | succ k =>
      have h8 : 8 * (k + 1) = 8 + 8 * k := by omega
      simp only [bytesToBits, List.take_succ_cons, h8, List.take_append_eq_append_take,
        length_byteToBits]
      rw [List.take_of_length_le (by simp [length_byteToBits])]
      simp [ih]

theorem mem_bytesToBits_lt_two {bs : List Nat} {x : Nat} (h : x ∈ bytesToBits bs) : x < 2 := by
  induction bs with
  | nil => simp [bytesToBits] at h
  | cons y ys ih =>
    simp only [bytesToBits, List.mem_append] at h
    rcases h with h | h
    · exact mem_byteToBits_lt_two h
    · exact ih h

theorem chunk8Aux_fuel :
    ∀ (f f' : Nat) (l : List Nat), l.length ≤ f → l.length ≤ f' →
      chunk8Aux f l = chunk8Aux f' l := by
  intro f
  induction f with
  | zero =>
    intro f' l hf _
    cases l with
    | nil => cases f' <;> rfl
    | cons b bs => simp at hf
  | succ f ih =>
    intro f' l hf hf'
    cases l with
    | nil => cases f' <;> rfl
    | cons b bs =>
      cases f' with
      | zero => simp at hf'
      | succ f' =>
        simp only [chunk8Aux, List.cons.injEq, true_and]
        have hd : (bs.drop 7).length ≤ f := by
          simp only [List.length_drop]
          simp only [List.length_cons] at hf
          omega
        have hd' : (bs.drop 7).length ≤ f' := by
          simp only [List.length_drop]
          simp only [List.length_cons] at hf'
          omega
        exact ih f' (bs.drop 7) hd hd'

theorem chunk8_nil : chunk8 [] = [] := rfl

theorem chunk8_cons (b : Nat) (bs : List Nat) :
    chunk8 (b :: bs) = (b :: bs.take 7) :: chunk8 (bs.drop 7) := by
  show chunk8Aux (bs.length + 1) (b :: bs) = _
  simp only [chunk8Aux, List.cons.injEq, true_and]
  exact chunk8Aux_fuel bs.length (bs.drop 7).length (bs.drop 7)
    (by simp only [List.length_drop]; omega) (le_refl _)

theorem chunk8_append8 {l : List Nat} (h : l.length = 8) (rest : List Nat) :
    chunk8 (l ++ rest) = l :: chunk8 rest := by
  match l, h with
  | b :: bs, h =>
    have hbs : bs.length = 7 := by simp only [List.length_cons] at h; omega
    rw [List.cons_append, chunk8_cons]
    rw [List.take_append_eq_append_take, List.take_of_length_le (by omega),
      List.drop_append_eq_append_drop, List.drop_of_length_le (by omega)]
    simp [hbs]

theorem chunk8_length :
    ∀ (n : Nat) (l : List Nat), l.length ≤ n → (chunk8 l).length = (l.length + 7) / 8 := by
  intro n
  induction n with
  | zero =>
    intro l hl
    have : l = [] := List.length_eq_zero.mp (by omega)
    subst this
    rfl
  | succ n ih =>
    intro l hl
    cases l with
    | nil => rfl
    | cons b bs =>
      rw [chunk8_cons]
      have hd : (bs.drop 7).length ≤ n := by
        simp only [List.length_drop]
        simp only [List.length_cons] at hl
        omega
      rw [List.length_cons, ih (bs.drop 7) hd]
      simp only [List.length_drop, List.length_cons]
      omega

theorem chunk8_bytesToBits (bs : List Nat) (rest : List Nat) :
    chunk8 (bytesToBits bs ++ rest) = bs.map byteToBits ++ chunk8 rest := by
  induction bs with
  | nil => simp [bytesToBits]
  | cons x xs ih =>
    simp only [bytesToBits, List.map_cons, List.append_assoc]
    rw [chunk8_append8 (length_byteToBits x)]
    simp [ih]

theorem chunk8_bytesToBits_nil (bs : List Nat) :
    chunk8 (bytesToBits bs) = bs.map byteToBits := by
  have h := chunk8_bytesToBits bs []
  rw [List.append_nil] at h
  rw [h, chunk8_nil, List.append_nil]

theorem chunk8_ne_nil {l : List Nat} (h : l ≠ []) : chunk8 l ≠ [] := by
  match l, h with
  | b :: bs, _ => rw [chunk8_cons]; simp

theorem length_writeBits :
    ∀ (data bits : List Nat) (i : Nat), (writeBits data bits i).length = data.length := by
  intro data
  induction data with
  | nil => intro bits i; cases bits <;> rfl
  | cons d ds ih =>
    intro bits i
    cases bits with
    | nil => rfl
    | cons b bs =>
      simp only [writeBits]
      split <;> simp [ih]

theorem getD_writeBits_alpha :
    ∀ (data bits : List Nat) (k i : Nat), (i + k) % 4 = 3 →
      (writeBits data bits k).getD i 0 = data.getD i 0 := by
  intro data
  induction data with
  | nil => intro bits k i _; cases bits <;> rfl
  | cons d ds ih =>
    intro bits k i hmod
    cases bits with
    | nil => rfl
    | cons b bs =>
      simp only [writeBits]
      by_cases hk : (k + 1) % 4 = 0
      · rw [if_pos hk]
        cases i with
        | zero => rfl
        | succ i =>
          simp only [List.getD_cons_succ]
          exact ih (b :: bs) (k + 1) i (by omega)
      · rw [if_neg hk]
        cases i with
        | zero => exact absurd (by omega : (k + 1) % 4 = 0) hk
        | succ i =>
          simp only [List.getD_cons_succ]
          exact ih bs (k + 1) i (by omega)

theorem usableLSBs_writeBits :
    ∀ (data bits : List Nat) (i : Nat), (∀ b ∈ bits, b < 2) →
      bits.length ≤ (usableLSBs data i).length →
      usableLSBs (writeBits data bits i) i = bits ++ (usableLSBs data i).drop bits.length := by
  intro data
  induction data with
  | nil =>
    intro bits i _ hlen
    have hnil : usableLSBs ([] : List Nat) i = [] := rfl
    rw [hnil] at hlen
    have hb : bits = [] := List.length_eq_zero.mp (by simpa using hlen)
    subst hb
    rfl
  | cons d ds ih =>
    intro bits i hb hlen
    cases bits with
    | nil =>
      simp only [writeBits, List.nil_append, List.length_nil, List.drop_zero]
    | cons b bs =>
      simp only [writeBits]
      by_cases hk : (i + 1) % 4 = 0
      · rw [if_pos hk]
        simp only [usableLSBs, if_pos hk] at hlen ⊢
        exact ih (b :: bs) (i + 1) hb hlen
      · rw [if_neg hk]
        simp only [usableLSBs, if_neg hk, List.length_cons] at hlen ⊢
        have hb0 : b < 2 := hb b (List.mem_cons_self b bs)
        have hmod : (2 * (d / 2) + b) % 2 = b := by omega
        rw [hmod]
        simp only [List.cons_append, List.cons.injEq, true_and, List.drop_succ_cons]
        exact ih bs (i + 1) (fun x hx => hb x (List.mem_cons_of_mem b hx)) (by omega)

theorem usableLSBs_shift :
    ∀ (data : List Nat) (i : Nat), usableLSBs data (i + 4) = usableLSBs data i := by
  intro data
  induction data with
  | nil => intro i; rfl
  | cons d ds ih =>
    intro i
    have hmod : (i + 4 + 1) % 4 = (i + 1) % 4 := by omega
    simp only [usableLSBs, hmod]
    split <;> rw [show i + 4 + 1 = i + 1 + 4 from by omega, ih (i + 1)]

theorem length_usableLSBs :
    ∀ (k : Nat) (data : List Nat), data.length = 4 * k →
      (usableLSBs data 0).length = 3 * k := by
  intro k
  induction k with
  | zero =>
    intro data hlen
    have : data = [] := List.length_eq_zero.mp (by omega)
    subst this
    rfl
  | succ k ih =>
    intro data hlen
    match data with
    | a :: b :: c :: d :: rest =>
      have hrest : rest.length = 4 * k := by
        simp only [List.length_cons] at hlen
        omega
      show (usableLSBs (a :: b :: c :: d :: rest) 0).length = 3 * (k + 1)
      have e : usableLSBs (a :: b :: c :: d :: rest) 0
          = a % 2 :: b % 2 :: c % 2 :: usableLSBs rest 4 := by
        simp [usableLSBs]
      have h4 : usableLSBs rest 4 = usableLSBs rest 0 := by
        simpa using usableLSBs_shift rest 0
      rw [e]
      simp only [List.length_cons]
      rw [h4, ih rest hrest]
      omega
    | [] => simp at hlen
    | [a] => simp at hlen; omega
    | [a, b] => simp at hlen; omega
    | [a, b, c] => simp at hlen; omega

/-! ### Properties of the UTF-8 layer -/

theorem toNat_Char_ofNat {n : Nat} (h : n.isValidChar) : (Char.ofNat n).toNat = n := by
  rw [Char.ofNat, dif_pos h]
  rfl

theorem char_toNat_valid (c : Char) :
    c.toNat < 55296 ∨ (57343 < c.toNat ∧ c.toNat < 1114112) := by
  have h := c.valid
  rcases h with h | ⟨h1, h2⟩
  · left
    exact UInt32.toNat_lt_of_lt (by decide) h
  · right
    exact ⟨UInt32.lt_toNat_of_lt (by decide) h1, UInt32.toNat_lt_of_lt (by decide) h2⟩

theorem isValidChar_of_lt {n : Nat} (h : n < 55296) : n.isValidChar :=
  Or.inl h

theorem replChar_toNat : replChar.toNat = 65533 := rfl

theorem utf8EncodeChar_ascii {c : Char} (h : c.toNat < 128) :
    utf8EncodeChar c = [c.toNat] := by
  simp [utf8EncodeChar, h]

theorem one_le_length_utf8EncodeChar (c : Char) : 1 ≤ (utf8EncodeChar c).length := by
  simp only [utf8EncodeChar]
  split_ifs <;> simp

theorem utf8Encode_append (a b : List Char) :
    utf8Encode (a ++ b) = utf8Encode a ++ utf8Encode b := by
  induction a with
  | nil => rfl
  | cons c cs ih => simp [utf8Encode, ih]

theorem length_le_length_utf8Encode (cs : List Char) :
    cs.length ≤ (utf8Encode cs).length := by
  induction cs with
  | nil => simp [utf8Encode]
  | cons c cs ih =>
    simp only [utf8Encode, List.length_cons, List.length_append]
    have := one_le_length_utf8EncodeChar c
    omega

theorem length_utf8Encode_ascii {cs : List Char} (h : ∀ c ∈ cs, c.toNat < 128) :
    (utf8Encode cs).length = cs.length := by
  induction cs with
  | nil => rfl
  | cons c cs ih =>
    have hc : c.toNat < 128 := h c (List.mem_cons_self c cs)
    have ht := ih (fun x hx => h x (List.mem_cons_of_mem c hx))
    show (utf8EncodeChar c ++ utf8Encode cs).length = (c :: cs).length
    rw [List.length_append, utf8EncodeChar_ascii hc, ht]
    simp only [List.length_cons, List.length_nil]
    omega

theorem mem_utf8EncodeChar_lt {c : Char} {x : Nat} (h : x ∈ utf8EncodeChar c) : x < 256 := by
  have hv := char_toNat_valid c
  simp only [utf8EncodeChar] at h
  split_ifs at h <;> simp only [List.mem_cons, List.not_mem_nil, or_false] at h <;>
    rcases h with h | h | h | h <;> omega

theorem mem_utf8Encode_lt {cs : List Char} {x : Nat} (h : x ∈ utf8Encode cs) : x < 256 := by
  induction cs with
  | nil => simp [utf8Encode] at h
  | cons c cs ih =>
    simp only [utf8Encode, List.mem_append] at h
    rcases h with h | h
    · exact mem_utf8EncodeChar_lt h
    · exact ih h

theorem utf8DecodeAux_nil (f : Nat) : utf8DecodeAux f [] = [] := by
  cases f <;> rfl

theorem utf8Step1 {b : Nat} (h : b < 128) (fuel : Nat) (bs : List Nat) :
    utf8DecodeAux (fuel + 1) (b :: bs) = Char.ofNat b :: utf8DecodeAux fuel bs := by
  simp only [utf8DecodeAux, if_pos h]

theorem utf8Step2 {b b1 : Nat} (h1 : 194 ≤ b) (h2 : b < 224) (h3 : 128 ≤ b1) (h4 : b1 < 192)
    (fuel : Nat) (r1 : List Nat) :
    utf8DecodeAux (fuel + 1) (b :: b1 :: r1)
      = Char.ofNat ((b - 192) * 64 + (b1 - 128)) :: utf8DecodeAux fuel r1 := by
  simp only [utf8DecodeAux]
  rw [if_neg (by omega), if_neg (by omega), if_pos h2, if_pos ⟨h3, h4⟩]

theorem utf8Step3 {b b1 b2 : Nat} (h1 : 224 ≤ b) (h2 : b < 240)
    (h3 : (if b = 224 then 160 else 128) ≤ b1) (h4 : b1 < (if b = 237 then 160 else 192))
    (h5 : 128 ≤ b2) (h6 : b2 < 192) (fuel : Nat) (r2 : List Nat) :
    utf8DecodeAux (fuel + 1) (b :: b1 :: b2 :: r2)
      = Char.ofNat ((b - 224) * 4096 + (b1 - 128) * 64 + (b2 - 128)) :: utf8DecodeAux fuel r2 := by
  simp only [utf8DecodeAux]
  rw [if_neg (by omega), if_neg (by omega), if_neg (by omega), if_pos h2, if_pos ⟨h3, h4⟩,
    if_pos ⟨h5, h6⟩]

theorem utf8Step4 {b b1 b2 b3 : Nat} (h1 : 240 ≤ b) (h2 : b < 245)
    (h3 : (if b = 240 then 144 else 128) ≤ b1) (h4 : b1 < (if b = 244 then 144 else 192))
    (h5 : 128 ≤ b2) (h6 : b2 < 192) (h7 : 128 ≤ b3) (h8 : b3 < 192)
    (fuel : Nat) (r3 : List Nat) :
    utf8DecodeAux (fuel + 1) (b :: b1 :: b2 :: b3 :: r3)
      = Char.ofNat ((b - 240) * 262144 + (b1 - 128) * 4096 + (b2 - 128) * 64 + (b3 - 128))
        :: utf8DecodeAux fuel r3 := by
  simp only [utf8DecodeAux]
  rw [if_neg (by omega), if_neg (by omega), if_neg (by omega), if_neg (by omega), if_pos h2,
    if_pos ⟨h3, h4⟩, if_pos ⟨h5, h6⟩, if_pos ⟨h7, h8⟩]

theorem utf8DecodeAux_encodeChar (c : Char) (fuel : Nat) (rest : List Nat) :
    utf8DecodeAux (fuel + 1) (utf8EncodeChar c ++ rest) = c :: utf8DecodeAux fuel rest := by
  have hv := char_toNat_valid c
  by_cases hc1 : c.toNat < 128
  · rw [utf8EncodeChar_ascii hc1, List.cons_append, List.nil_append,
      utf8Step1 hc1, Char.ofNat_toNat]
  · by_cases hc2 : c.toNat < 2048
    · have he : utf8EncodeChar c = [192 + c.toNat / 64, 128 + c.toNat % 64] := by
        simp [utf8EncodeChar, hc1, hc2]
      rw [he, List.cons_append, List.cons_append, List.nil_append,
        utf8Step2 (by omega) (by omega) (by omega) (by omega)]
      have hval : (192 + c.toNat / 64 - 192) * 64 + (128 + c.toNat % 64 - 128) = c.toNat := by
        omega
      rw [hval, Char.ofNat_toNat]
    · by_cases hc3 : c.toNat < 65536
      · have he : utf8EncodeChar c
            = [224 + c.toNat / 4096, 128 + c.toNat / 64 % 64, 128 + c.toNat % 64] := by
          simp [utf8EncodeChar, hc1, hc2, hc3]
        rw [he, List.cons_append, List.cons_append, List.cons_append, List.nil_append,
          utf8Step3 (by omega) (by omega) (by split <;> omega) (by split <;> omega)
            (by omega) (by omega)]
        have hval : (224 + c.toNat / 4096 - 224) * 4096 + (128 + c.toNat / 64 % 64 - 128) * 64
            + (128 + c.toNat % 64 - 128) = c.toNat := by
          omega
        rw [hval, Char.ofNat_toNat]
      · have hc4 : c.toNat < 1114112 := by omega
        have he : utf8EncodeChar c
            = [240 + c.toNat / 262144, 128 + c.toNat / 4096 % 64, 128 + c.toNat / 64 % 64,
               128 + c.toNat % 64] := by
          simp [utf8EncodeChar, hc1, hc2, hc3]
        rw [he, List.cons_append, List.cons_append, List.cons_append, List.cons_append,
          List.nil_append,
          utf8Step4 (by omega) (by omega) (by split <;> omega) (by split <;> omega)
            (by omega) (by omega) (by omega) (by omega)]
        have hval : (240 + c.toNat / 262144 - 240) * 262144 + (128 + c.toNat / 4096 % 64 - 128)
            * 4096 + (128 + c.toNat / 64 % 64 - 128) * 64 + (128 + c.toNat % 64 - 128)
            = c.toNat := by
          omega
        rw [hval, Char.ofNat_toNat]

theorem utf8DecodeAux_encode :
    ∀ (cs : List Char) (f : Nat) (rest : List Nat), cs.length ≤ f →
      utf8DecodeAux f (utf8Encode cs ++ rest) = cs ++ utf8DecodeAux (f - cs.length) rest := by
  intro cs
  induction cs with
  | nil => intro f rest _; simp [utf8Encode]
  | cons c cs ih =>
    intro f rest hf
    match f, hf with
    | f + 1, hf =>
      have : utf8Encode (c :: cs) ++ rest = utf8EncodeChar c ++ (utf8Encode cs ++ rest) := by
        simp [utf8Encode]
      rw [this, utf8DecodeAux_encodeChar c f (utf8Encode cs ++ rest),
        ih f rest (by simp only [List.length_cons] at hf; omega)]
      have hfu : f + 1 - (c :: cs).length = f - cs.length := by
        show f + 1 - (cs.length + 1) = f - cs.length
        omega
      rw [hfu]
      simp

theorem utf8DecodeReplace_utf8Encode (cs : List Char) :
    utf8DecodeReplace (utf8Encode cs) = cs := by
  have h := utf8DecodeAux_encode cs (utf8Encode cs).length []
    (length_le_length_utf8Encode cs)
  rw [List.append_nil] at h
  rw [utf8DecodeReplace, h, utf8DecodeAux_nil, List.append_nil]

theorem not_ascii_replChar {cs' : List Char} (h : ∀ c ∈ replChar :: cs', c.toNat < 128) :
    False := by
  have := h replChar (List.mem_cons_self _ _)
  rw [replChar_toNat] at this
  omega

theorem utf8DecodeAux_ascii_inj :
    ∀ (f : Nat) (bs : List Nat) (cs : List Char), bs.length ≤ f →
      utf8DecodeAux f bs = cs → (∀ c ∈ cs, c.toNat < 128) → bs = cs.map Char.toNat := by
  intro f
  induction f with
  | zero =>
    intro bs cs hlen heq _
    have hb : bs = [] := List.length_eq_zero.mp (by omega)
    subst hb
    rw [utf8DecodeAux_nil] at heq
    rw [← heq]
    rfl
  | succ f ih =>
    intro bs cs hlen heq hascii
    cases bs with
    | nil =>
      rw [utf8DecodeAux_nil] at heq
      rw [← heq]
      rfl
    | cons b bs =>
      subst heq
      have hlen' : bs.length ≤ f := by
        simp only [List.length_cons] at hlen
        omega
      by_cases h1 : b < 128
      · rw [utf8Step1 h1] at hascii ⊢
        have hb : (Char.ofNat b).toNat = b := toNat_Char_ofNat (Or.inl (by omega))
        simp only [List.map_cons, hb, List.cons.injEq, true_and]
        exact ih bs _ hlen' rfl (fun c hc => hascii c (List.mem_cons_of_mem _ hc))
      · exfalso
        by_cases h2 : b < 194
        · have hstep : utf8DecodeAux (f + 1) (b :: bs) = replChar :: utf8DecodeAux f bs := by
            simp only [utf8DecodeAux]
            rw [if_neg h1, if_pos h2]
          rw [hstep] at hascii
          exact not_ascii_replChar hascii
        · by_cases h3 : b < 224
          · cases bs with
            | nil =>
              have hstep : utf8DecodeAux (f + 1) [b] = [replChar] := by
                simp only [utf8DecodeAux]
                rw [if_neg h1, if_neg h2, if_pos h3]
              rw [hstep] at hascii
              exact not_ascii_replChar hascii
            | cons b1 r1 =>
              by_cases hc1 : 128 ≤ b1 ∧ b1 < 192
              · rw [utf8Step2 (by omega) h3 hc1.1 hc1.2] at hascii
                have := hascii _ (List.mem_cons_self _ _)
                rw [toNat_Char_ofNat (Or.inl (by omega))] at this
                omega
              · have hstep : utf8DecodeAux (f + 1) (b :: b1 :: r1)
                    = replChar :: utf8DecodeAux f (b1 :: r1) := by
                  simp only [utf8DecodeAux]
                  rw [if_neg h1, if_neg h2, if_pos h3, if_neg hc1]
                rw [hstep] at hascii
                exact not_ascii_replChar hascii
          · by_cases h4 : b < 240
            · cases bs with
              | nil =>
                have hstep : utf8DecodeAux (f + 1) [b] = [replChar] := by
                  simp only [utf8DecodeAux]
                  rw [if_neg h1, if_neg h2, if_neg h3, if_pos h4]
                rw [hstep] at hascii
                exact not_ascii_replChar hascii
              | cons b1 r1 =>
                by_cases hc1 : (if b = 224 then 160 else 128) ≤ b1 ∧ b1 < (if b = 237 then 160 else 192)
                · cases r1 with
                  | nil =>
                    have hstep : utf8DecodeAux (f + 1) [b, b1] = [replChar] := by
                      simp only [utf8DecodeAux]
                      rw [if_neg h1, if_neg h2, if_neg h3, if_pos h4, if_pos hc1]
                    rw [hstep] at hascii
                    exact not_ascii_replChar hascii
                  | cons b2 r2 =>
                    by_cases hc2 : 128 ≤ b2 ∧ b2 < 192
                    · rw [utf8Step3 (by omega) h4 hc1.1 hc1.2 hc2.1 hc2.2] at hascii
                      have hhd := hascii _ (List.mem_cons_self _ _)
                      have hvv : ((b - 224) * 4096 + (b1 - 128) * 64 + (b2 - 128)).isValidChar := by
                        have hb1a := hc1.1
                        have hb1b := hc1.2
                        split at hb1a <;> split at hb1b <;>
                          first
                          | exact Or.inl (by omega)
                          | exact (by
                              by_cases hb238 : b ≤ 237
                              · exact Or.inl (by omega)
                              · exact Or.inr (by omega))
                      rw [toNat_Char_ofNat hvv] at hhd
                      have hb1c := hc1.1
                      split at hb1c <;> omega
                    · have hstep : utf8DecodeAux (f + 1) (b :: b1 :: b2 :: r2)
                          = replChar :: utf8DecodeAux f (b2 :: r2) := by
                        simp only [utf8DecodeAux]
                        rw [if_neg h1, if_neg h2, if_neg h3, if_pos h4, if_pos hc1, if_neg hc2]
                      rw [hstep] at hascii
                      exact not_ascii_replChar hascii
                · have hstep : utf8DecodeAux (f + 1) (b :: b1 :: r1)
                      = replChar :: utf8DecodeAux f (b1 :: r1) := by
                    simp only [utf8DecodeAux]
                    rw [if_neg h1, if_neg h2, if_neg h3, if_pos h4, if_neg hc1]
                  rw [hstep] at hascii
                  exact not_ascii_replChar hascii
            · by_cases h5 : b < 245
              · cases bs with
                | nil =>
                  have hstep : utf8DecodeAux (f + 1) [b] = [replChar] := by
                    simp only [utf8DecodeAux]
                    rw [if_neg h1, if_neg h2, if_neg h3, if_neg h4, if_pos h5]
                  rw [hstep] at hascii
                  exact not_ascii_replChar hascii
                | cons b1 r1 =>
                  by_cases hc1 : (if b = 240 then 144 else 128) ≤ b1 ∧ b1 < (if b = 244 then 144 else 192)
                  · cases r1 with
                    | nil =>
                      have hstep : utf8DecodeAux (f + 1) [b, b1] = [replChar] := by
                        simp only [utf8DecodeAux]
                        rw [if_neg h1, if_neg h2, if_neg h3, if_neg h4, if_pos h5, if_pos hc1]
                      rw [hstep] at hascii
                      exact not_ascii_replChar hascii
                    | cons b2 r2 =>
                      by_cases hc2 : 128 ≤ b2 ∧ b2 < 192
                      · cases r2 with
                        | nil =>
                          have hstep : utf8DecodeAux (f + 1) [b, b1, b2] = [replChar] := by
                            simp only [utf8DecodeAux]
                            rw [if_neg h1, if_neg h2, if_neg h3, if_neg h4, if_pos h5,
                              if_pos hc1, if_pos hc2]
                          rw [hstep] at hascii
                          exact not_ascii_replChar hascii
                        | cons b3 r3 =>
                          by_cases hc3 : 128 ≤ b3 ∧ b3 < 192
                          · rw [utf8Step4 (by omega) h5 hc1.1 hc1.2 hc2.1 hc2.2 hc3.1 hc3.2]
                              at hascii
                            have hhd := hascii _ (List.mem_cons_self _ _)
                            have hb1a := hc1.1
                            have hb1b := hc1.2
                            have hvv : ((b - 240) * 262144 + (b1 - 128) * 4096 + (b2 - 128) * 64
                                + (b3 - 128)).isValidChar := by
                              split at hb1a <;> split at hb1b <;> exact Or.inr (by omega)
                            rw [toNat_Char_ofNat hvv] at hhd
                            have hb1c := hc1.1
                            split at hb1c <;> omega
                          · have hstep : utf8DecodeAux (f + 1) (b :: b1 :: b2 :: b3 :: r3)
                                = replChar :: utf8DecodeAux f (b3 :: r3) := by
                              simp only [utf8DecodeAux]
                              rw [if_neg h1, if_neg h2, if_neg h3, if_neg h4, if_pos h5,
                                if_pos hc1, if_pos hc2, if_neg hc3]
                            rw [hstep] at hascii
                            exact not_ascii_replChar hascii
                      · have hstep : utf8DecodeAux (f + 1) (b :: b1 :: b2 :: r2)
                            = replChar :: utf8DecodeAux f (b2 :: r2) := by
                          simp only [utf8DecodeAux]
                          rw [if_neg h1, if_neg h2, if_neg h3, if_neg h4, if_pos h5,
                            if_pos hc1, if_neg hc2]
                        rw [hstep] at hascii
                        exact not_ascii_replChar hascii
                  · have hstep : utf8DecodeAux (f + 1) (b :: b1 :: r1)
                        = replChar :: utf8DecodeAux f (b1 :: r1) := by
                      simp only [utf8DecodeAux]
                      rw [if_neg h1, if_neg h2, if_neg h3, if_neg h4, if_pos h5, if_neg hc1]
                    rw [hstep] at hascii
                    exact not_ascii_replChar hascii
              · have hstep : utf8DecodeAux (f + 1) (b :: bs)
                    = replChar :: utf8DecodeAux f bs := by
                  simp only [utf8DecodeAux]
                  rw [if_neg h1, if_neg h2, if_neg h3, if_neg h4, if_neg h5]
                rw [hstep] at hascii
                exact not_ascii_replChar hascii

/-! ### Capacity arithmetic and the encoder -/

theorem int_le_fdiv_iff {X T : Int} : T ≤ Int.fdiv X 8 ↔ T * 8 ≤ X := by
  rw [Int.fdiv_eq_ediv _ (by omega)]
  exact Int.le_ediv_iff_mul_le (by omega)

namespace Stego

theorem utf8Encode_magicChars : utf8Encode magicChars = magicBytes := rfl

theorem utf8Encode_delimChars : utf8Encode delimChars = [36, 36, 69, 78, 68, 36, 36] := rfl

theorem length_utf8Encode_delim (secretText : List Char) :
    (utf8Encode (secretText ++ delimChars)).length = (utf8Encode secretText).length + 7 := by
  rw [utf8Encode_append, List.length_append, utf8Encode_delimChars]
  rfl

theorem length_totalBytesOf (secretText : List Char) :
    (totalBytesOf secretText).length = 17 + (utf8Encode secretText).length := by
  rw [totalBytesOf, List.length_append, List.length_append, utf8Encode_magicChars,
    length_utf8Encode_delim]
  simp only [lengthBytesOf, magicBytes, List.length_cons, List.length_nil]
  omega

theorem mem_totalBytesOf_lt {secretText : List Char} {x : Nat}
    (h : x ∈ totalBytesOf secretText) : x < 256 := by
  rw [totalBytesOf, utf8Encode_magicChars] at h
  simp only [List.mem_append] at h
  rcases h with (h | h) | h
  · simp only [magicBytes, List.mem_cons, List.not_mem_nil, or_false] at h
    omega
  · simp only [lengthBytesOf, List.mem_cons, List.not_mem_nil, or_false] at h
    rcases h with h | h | h | h <;> omega
  · exact mem_utf8Encode_lt h

theorem length_encodeBits (secretText : List Char) :
    (bytesToBits (totalBytesOf secretText)).length
      = 8 * (17 + (utf8Encode secretText).length) := by
  rw [length_bytesToBits, length_totalBytesOf]

theorem capacity_le_bits {width height : Nat} {secretText : List Char}
    (hcap : ((utf8Encode secretText).length : Int) ≤ calculateCapacity width height) :
    8 * (17 + (utf8Encode secretText).length) ≤ width * height * 3 := by
  rw [calculateCapacity, int_le_fdiv_iff] at hcap
  omega

theorem encodeText_eq_ok {data : List Nat} {width height : Nat} {secretText : List Char}
    (h : (bytesToBits (totalBytesOf secretText)).length ≤ width * height * 3) :
    encodeText data width height secretText
      = .ok (writeBits data (bytesToBits (totalBytesOf secretText)) 0) := by
  simp only [encodeText]
  rw [if_neg (by omega)]

theorem encodeText_eq_error {data : List Nat} {width height : Nat} {secretText : List Char}
    (h : width * height * 3 < (bytesToBits (totalBytesOf secretText)).length) :
    encodeText data width height secretText = .error .capacityExceeded := by
  simp only [encodeText]
  rw [if_pos h]

end Stego

theorem map_bitsToNat_byteToBits {bs : List Nat} (h : ∀ x ∈ bs, x < 256) :
    (bs.map byteToBits).map bitsToNat = bs := by
  induction bs with
  | nil => rfl
  | cons b bs ih =>
    simp only [List.map_cons, List.cons.injEq]
    exact ⟨bitsToNat_byteToBits (h b (List.mem_cons_self b bs)),
      ih (fun x hx => h x (List.mem_cons_of_mem b hx))⟩

namespace Stego

theorem decodeText_writeBits {data : List Nat} {width height : Nat} {secretText : List Char}
    (hdata : data.length = 4 * (width * height))
    (hfit : 8 * (17 + (utf8Encode secretText).length) ≤ width * height * 3)
    (hsmall : (utf8Encode secretText).length + 7 < 4294967296) :
    decodeText (writeBits data (bytesToBits (totalBytesOf secretText)) 0)
      = if 10000000 < (utf8Encode secretText).length + 7 then .error .invalidLength
        else .ok secretText := by
  set T := (utf8Encode secretText).length with hT
  set B := bytesToBits (totalBytesOf secretText) with hB
  set enc := writeBits data B 0 with henc
  set msgBytes := utf8Encode (secretText ++ delimChars) with hmsgBytes
  have hmlen : msgBytes.length = T + 7 := length_utf8Encode_delim secretText
  have hBlen : B.length = 8 * (17 + T) := length_encodeBits secretText
  have husable : (usableLSBs data 0).length = 3 * (width * height) :=
    length_usableLSBs (width * height) data hdata
  have hBle : B.length ≤ (usableLSBs data 0).length := by
    rw [hBlen, husable]; omega
  have hu : dtUsable enc = B ++ (usableLSBs data 0).drop B.length := by
    rw [dtUsable, henc]
    exact usableLSBs_writeBits data B 0 (fun b hb => mem_bytesToBits_lt_two hb) hBle
  have hlen10 : (magicBytes ++ lengthBytesOf (T + 7)).length = 10 := by
    simp [magicBytes, lengthBytesOf]
  have htb' : totalBytesOf secretText = (magicBytes ++ lengthBytesOf (T + 7)) ++ msgBytes := by
    rw [totalBytesOf, utf8Encode_magicChars, ← hmsgBytes, hmlen, List.append_assoc]
  have htake10 : (totalBytesOf secretText).take 10 = magicBytes ++ lengthBytesOf (T + 7) := by
    rw [htb', List.take_left' hlen10]
  have htake80 : (dtUsable enc).take 80 = bytesToBits (magicBytes ++ lengthBytesOf (T + 7)) := by
    rw [hu, List.take_append_eq_append_take,
      show (80 : Nat) - B.length = 0 from by omega, List.take_zero, List.append_nil,
      show (80 : Nat) = 8 * 10 from rfl, hB, take_bytesToBits, htake10]
  have hchunks : dtHeaderChunks enc = (magicBytes ++ lengthBytesOf (T + 7)).map byteToBits := by
    rw [dtHeaderChunks, htake80, chunk8_bytesToBits_nil]
  have hchunklen : (dtHeaderChunks enc).length = 10 := by
    rw [hchunks, List.length_map, hlen10]
  have hbytes256 : ∀ x ∈ magicBytes ++ lengthBytesOf (T + 7), x < 256 := by
    intro x hx
    simp only [List.mem_append, magicBytes, lengthBytesOf, List.mem_cons, List.not_mem_nil,
      or_false] at hx
    rcases hx with (h | h | h | h | h | h) | (h | h | h | h) <;> omega
  have hextract : dtExtracted enc = magicBytes ++ lengthBytesOf (T + 7) := by
    rw [dtExtracted, hchunks, List.take_of_length_le (by rw [List.length_map, hlen10]),
      map_bitsToNat_byteToBits hbytes256]
  have hmagic : dtMagic enc = magicChars := by
    rw [dtMagic, hextract, List.take_left' (show magicBytes.length = 6 from rfl)]
    decide
  have hL : dtMessageLength enc = T + 7 := by
    rw [dtMessageLength, hextract, List.drop_left' (show magicBytes.length = 6 from rfl)]
    simp only [lengthBytesOf, List.getD_cons_zero, List.getD_cons_succ]
    omega
  have henclen : enc.length = data.length := length_writeBits data B 0
  have hmax : dtMessageLength enc ≤ dtMaxPossibleLength enc := by
    rw [hL, dtMaxPossibleLength, henclen, hdata, Nat.le_div_iff_mul_le (by omega)]
    omega
  by_cases hbig : 10000000 < T + 7
  · rw [if_pos hbig, decodeText]
    rw [if_neg (by rw [hchunklen]; omega), if_neg (by rw [hmagic]; simp),
      if_pos (Or.inr (by rw [hL]; omega))]
  · rw [if_neg hbig]
    have htakeAll : (dtUsable enc).take ((10 + dtMessageLength enc) * 8) = B := by
      rw [hL, hu, show (10 + (T + 7)) * 8 = B.length from by rw [hBlen]; omega]
      rw [List.take_append_eq_append_take, Nat.sub_self, List.take_zero, List.append_nil,
        List.take_of_length_le (le_refl _)]
    have hAllBytes : dtAllBytes enc = (totalBytesOf secretText).map byteToBits := by
      rw [dtAllBytes, htakeAll, hB, chunk8_bytesToBits_nil]
    have hABne : ¬((dtAllBytes enc).isEmpty = true) := by
      rw [hAllBytes, htb']
      simp [magicBytes]
    have hpayload : dtPayloadBytes enc = msgBytes := by
      rw [dtPayloadBytes, hAllBytes, hL, htb', List.map_append,
        List.drop_left' (by rw [List.length_map, hlen10]),
        List.take_of_length_le (by rw [List.length_map, hmlen]),
        map_bitsToNat_byteToBits (fun x hx => mem_utf8Encode_lt (hmsgBytes ▸ hx))]
    have hmsg2 : dtMessage enc = secretText ++ delimChars := by
      rw [dtMessage, hpayload, hmsgBytes, utf8DecodeReplace_utf8Encode]
    have hsfx : delimChars.isSuffixOf (dtMessage enc) = true := by
      rw [hmsg2]
      exact List.isSuffixOf_iff_suffix.mpr (List.suffix_append _ _)
    rw [decodeText]
    rw [if_neg (by rw [hchunklen]; omega), if_neg (by rw [hmagic]; simp),
      if_neg (by push_neg; exact ⟨hmax, by rw [hL]; omega⟩), if_neg hABne, if_pos hsfx, hmsg2]
    have hfin : (secretText ++ delimChars).length - 7 = secretText.length := by
      rw [List.length_append]
      simp [delimChars]
    rw [hfin, List.take_left' rfl]

end Stego

/-! ### Path lemmas for the decoder -/

namespace Stego

theorem decodeText_current {data : List Nat}
    (h1 : ¬ (dtHeaderChunks data).length < 10)
    (h2 : dtMagic data = magicChars)
    (h3 : ¬ (dtMaxPossibleLength data < dtMessageLength data
      ∨ 10000000 < dtMessageLength data)) :
    decodeText data
      = if delimChars.isSuffixOf (dtMessage data) then
          .ok ((dtMessage data).take ((dtMessage data).length - 7))
        else .ok (dtMessage data) := by
  have hu : dtUsable data ≠ [] := by
    intro hnil
    apply h1
    rw [dtHeaderChunks, hnil]
    decide
  have h4 : (dtAllBytes data).isEmpty = false := by
    have htne : (dtUsable data).take ((10 + dtMessageLength data) * 8) ≠ [] := by
      rw [Ne, List.take_eq_nil_iff]
      push_neg
      exact ⟨by omega, hu⟩
    have := chunk8_ne_nil htne
    rw [dtAllBytes]
    cases hx : chunk8 ((dtUsable data).take ((10 + dtMessageLength data) * 8)) with
    | nil => exact absurd hx this
    | cons a b => rfl
  rw [decodeText, if_neg h1, if_neg (by simp [h2]), if_neg h3, if_neg (by simp [h4])]

theorem decodeText_noMessage {data : List Nat} (h : (dtUsable data).length ≤ 72) :
    decodeText data = .error .noMessageFound := by
  have hc : (dtHeaderChunks data).length < 10 := by
    rw [dtHeaderChunks, List.take_of_length_le (by omega),
      chunk8_length ((dtUsable data).length) _ (le_refl _)]
    omega
  rw [decodeText, if_pos hc]

end Stego

/-! ### Properties of the legacy encoder and the legacy scan -/

theorem usableLSBs_lt_two : ∀ (data : List Nat) (i : Nat) (x : Nat),
    x ∈ usableLSBs data i → x < 2 := by
  intro data
  induction data with
  | nil => intro i x hx; simp [usableLSBs] at hx
  | cons d ds ih =>
    intro i x hx
    simp only [usableLSBs] at hx
    split at hx
    · exact ih (i + 1) x hx
    · rcases List.mem_cons.mp hx with h | h
      · omega
      · exact ih (i + 1) x h

theorem mem_chunk8Aux : ∀ (f : Nat) (l : List Nat) (chunk : List Nat) (x : Nat),
    chunk ∈ chunk8Aux f l → x ∈ chunk → x ∈ l := by
  intro f
  induction f with
  | zero =>
    intro l chunk x hc _
    cases l with
    | nil => simp [chunk8Aux] at hc
    | cons b bs => simp [chunk8Aux] at hc
  | succ f ih =>
    intro l chunk x hc hx
    cases l with
    | nil => simp [chunk8Aux] at hc
    | cons b bs =>
      simp only [chunk8Aux, List.mem_cons] at hc
      rcases hc with hc | hc
      · subst hc
        rcases List.mem_cons.mp hx with h | h
        · exact h ▸ List.mem_cons_self b bs
        · exact List.mem_cons_of_mem b (List.mem_of_mem_take h)
      · exact List.mem_cons_of_mem b (List.mem_of_mem_drop (ih (bs.drop 7) chunk x hc hx))

theorem mem_chunk8 {l chunk : List Nat} {x : Nat}
    (hc : chunk ∈ chunk8 l) (hx : x ∈ chunk) : x ∈ l :=
  mem_chunk8Aux l.length l chunk x hc hx

theorem bitsToNat_foldl_bound : ∀ (l : List Nat) (a : Nat), (∀ x ∈ l, x < 2) →
    List.foldl (fun a b => 2 * a + b) a l < (a + 1) * 2 ^ l.length := by
  intro l
  induction l with
  | nil =>
    intro a _
    simp only [List.foldl_nil, List.length_nil, pow_zero, mul_one]
    omega
  | cons b bs ih =>
    intro a h
    have hb : b < 2 := h b (List.mem_cons_self b bs)
    have := ih (2 * a + b) (fun x hx => h x (List.mem_cons_of_mem b hx))
    simp only [List.foldl_cons, List.length_cons]
    calc List.foldl (fun a b => 2 * a + b) (2 * a + b) bs
        < (2 * a + b + 1) * 2 ^ bs.length := this
      _ ≤ ((a + 1) * 2) * 2 ^ bs.length := Nat.mul_le_mul_right _ (by omega)
      _ = (a + 1) * 2 ^ (bs.length + 1) := by ring

theorem bitsToNat_lt {l : List Nat} (h : ∀ x ∈ l, x < 2) : bitsToNat l < 2 ^ l.length := by
  have := bitsToNat_foldl_bound l 0 h
  simpa [bitsToNat] using this

theorem bitsToNat_zero {l : List Nat} (h : ∀ x ∈ l, x = 0) : bitsToNat l = 0 := by
  rw [bitsToNat]
  induction l with
  | nil => rfl
  | cons b bs ih =>
    have hb : b = 0 := h b (List.mem_cons_self b bs)
    simp only [List.foldl_cons, hb]
    exact ih (fun x hx => h x (List.mem_cons_of_mem b hx))

set_option maxRecDepth 4000 in
theorem padStart8_natBinDigits : ∀ n, n < 256 →
    Legacy.padStart8 (Legacy.natBinDigits n) = byteToBits n := by
  decide

namespace Legacy

theorem textToBinary_bytes {cs : List Char} (h : ∀ c ∈ cs, c.toNat ≤ 255) :
    textToBinary cs = bytesToBits (cs.map Char.toNat) := by
  induction cs with
  | nil => rfl
  | cons c tl ih =>
    have hc : c.toNat < 256 := by
      have := h c (List.mem_cons_self c tl)
      omega
    show padStart8 (natBinDigits c.toNat) ++ textToBinary tl = _
    rw [padStart8_natBinDigits c.toNat hc, List.map_cons,
      ih (fun x hx => h x (List.mem_cons_of_mem c hx))]
    rfl

theorem legacyEncode_ok {data : List Nat} {width height : Nat} {secretText : List Char}
    (hcap : (secretText.length : Int) + 7 ≤ calculateCapacity width height) :
    encodeText data width height secretText
      = .ok (writeBits data (textToBinary (secretText ++ Stego.delimChars)) 0) := by
  simp only [encodeText]
  rw [if_neg]
  push_neg
  have hlen : ((secretText ++ Stego.delimChars).length : Int) = (secretText.length : Int) + 7 := by
    rw [List.length_append]
    push_cast
    rfl
  rw [hlen]
  exact hcap

theorem capacity_le_bits_legacy {width height : Nat} {secretText : List Char}
    (hcap : (secretText.length : Int) + 7 ≤ calculateCapacity width height) :
    8 * (secretText.length + 7) + 56 ≤ width * height * 3 := by
  rw [calculateCapacity] at hcap
  have h8 : ((secretText.length : Int) + 7) * 8 ≤ (width * height * 3 : Int) - 56 :=
    int_le_fdiv_iff.mp hcap
  omega

end Legacy

namespace Stego

theorem legacyStep_zero (text : List Char) : legacyStep text 0 = text := by
  simp [legacyStep]

theorem legacyStep_byte {text : List Char} {b : Nat} (h1 : 1 ≤ b) (h2 : b ≤ 255) :
    legacyStep text b = text ++ [Char.ofNat b] := by
  rw [legacyStep]
  by_cases hp : 32 ≤ b ∧ b ≤ 126
  · rw [if_pos hp]
  · rw [if_neg hp, if_pos (by omega : 0 < b), utf8DecodeFatalByte]
    by_cases hf : b < 128
    · rw [if_pos hf]
    · rw [if_neg hf]

theorem legacyStep_mem {text : List Char} {b : Nat} {c : Char} (hc : c ∈ legacyStep text b) :
    c ∈ text ∨ (0 < b ∧ c = Char.ofNat b) := by
  by_cases hz : b = 0
  · subst hz
    rw [legacyStep_zero] at hc
    exact Or.inl hc
  · by_cases hbig : b ≤ 255
    · rw [legacyStep_byte (by omega) hbig] at hc
      rcases List.mem_append.mp hc with h | h
      · exact Or.inl h
      · simp only [List.mem_cons, List.not_mem_nil, or_false] at h
        exact Or.inr ⟨by omega, h⟩
    · rw [legacyStep] at hc
      rw [if_neg (by omega), if_pos (by omega : 0 < b), utf8DecodeFatalByte,
        if_neg (by omega)] at hc
      rcases List.mem_append.mp hc with h | h
      · exact Or.inl h
      · simp only [List.mem_cons, List.not_mem_nil, or_false] at h
        exact Or.inr ⟨by omega, h⟩

theorem legacyScan_zero : ∀ (chunks : List (List Nat)),
    (∀ c ∈ chunks, ∀ x ∈ c, x = 0) →
    legacyScan chunks [] = .error .noMessageFound := by
  intro chunks
  induction chunks with
  | nil => intro _; rfl
  | cons c rest ih =>
    intro h
    simp only [legacyScan]
    split
    · rw [bitsToNat_zero (h c (List.mem_cons_self c rest)), legacyStep_zero]
      rw [if_neg (by decide), if_neg (by decide)]
      exact ih (fun x hx => h x (List.mem_cons_of_mem c hx))
    · rfl

theorem legacyScan_no_NUL :
    ∀ (chunks : List (List Nat)) (text s : List Char),
      (∀ c ∈ chunks, ∀ x ∈ c, x < 2) →
      Char.ofNat 0 ∉ text →
      legacyScan chunks text = .ok s →
      Char.ofNat 0 ∉ s := by
  intro chunks
  induction chunks with
  | nil => intro text s _ _ heq; simp [legacyScan] at heq
  | cons c rest ih =>
    intro text s hbits htext heq
    simp only [legacyScan] at heq
    split at heq
    · have hbyte : bitsToNat c < 256 := by
        have := bitsToNat_lt (hbits c (List.mem_cons_self c rest))
        rename_i hlen8
        rw [hlen8] at this
        omega
      have ht : Char.ofNat 0 ∉ legacyStep text (bitsToNat c) := by
        intro hmem
        rcases legacyStep_mem hmem with h | ⟨hpos, hval⟩
        · exact htext h
        · have h0 : (Char.ofNat 0).toNat = 0 := by decide
          have hb : (Char.ofNat (bitsToNat c)).toNat = bitsToNat c :=
            toNat_Char_ofNat (Or.inl (by omega))
          rw [hval, hb] at h0
          omega
      split at heq
      · have hs : s = (legacyStep text (bitsToNat c)).take
            ((legacyStep text (bitsToNat c)).length - 7) := by
          cases heq
          rfl
        rw [hs]
        intro hmem
        exact ht (List.mem_of_mem_take hmem)
      · split at heq
        · simp at heq
        · exact ih _ s (fun x hx => hbits x (List.mem_cons_of_mem c hx)) ht heq
    · simp at heq

end Stego

namespace Stego

theorem legacyScan_payload :
    ∀ (tail done : List Char) (rest : List (List Nat)) (full : List Char),
      done ++ tail = full →
      (∀ c ∈ tail, 1 ≤ c.toNat ∧ c.toNat ≤ 255) →
      tail ≠ [] →
      (∀ k, k < full.length → ¬ delimChars.isSuffixOf (full.take k)) →
      delimChars.isSuffixOf full = true →
      full.length ≤ 1000000 →
      legacyScan ((tail.map (fun c => byteToBits c.toNat)) ++ rest) done
        = .ok (full.take (full.length - 7)) := by
  intro tail
  induction tail with
  | nil => intro done rest full _ _ hne _ _ _; exact absurd rfl hne
  | cons c tl ih =>
    intro done rest full hfull hcodes _ hnoearly hsfx hlen
    have hcr := hcodes c (List.mem_cons_self c tl)
    simp only [List.map_cons, List.cons_append, legacyScan]
    rw [if_pos (length_byteToBits _), bitsToNat_byteToBits (by omega),
      legacyStep_byte hcr.1 hcr.2, Char.ofNat_toNat]
    cases tl with
    | nil =>
      have hdc : done ++ [c] = full := hfull
      rw [hdc, if_pos hsfx]
    | cons c2 tl2 =>
      have hlt : (done ++ [c]).length < full.length := by
        rw [← hfull]
        simp only [List.length_append, List.length_cons, List.length_nil]
        omega
      have hpre : done ++ [c] = full.take (done.length + 1) := by
        rw [← hfull, List.take_append_eq_append_take,
          List.take_of_length_le (by omega),
          show done.length + 1 - done.length = 1 from by omega]
        rfl
      rw [if_neg (by
        rw [hpre]
        exact hnoearly (done.length + 1) (by
          have := hlt
          rw [hpre] at this
          calc done.length + 1
              = (done ++ [c]).length := by simp
            _ < full.length := hlt))]
      rw [if_neg (by
        have h1 := hlt
        simp only [List.length_append, List.length_cons, List.length_nil] at h1 ⊢
        omega)]
      have hfull' : (done ++ [c]) ++ (c2 :: tl2) = full := by
        rw [← hfull, List.append_assoc]
        rfl
      exact ih (done ++ [c]) rest full hfull'
        (fun x hx => hcodes x (List.mem_cons_of_mem c hx))
        (by simp) hnoearly hsfx hlen

end Stego

namespace Stego

theorem legacy_roundTrip_main {data : List Nat} {width height : Nat} {secretText : List Char}
    (hdata : data.length = 4 * (width * height))
    (hcodes : ∀ c ∈ secretText, 1 ≤ c.toNat ∧ c.toNat ≤ 255)
    (hcap : (secretText.length : Int) + 7 ≤ Legacy.calculateCapacity width height)
    (hmagicne : ((secretText ++ delimChars).map Char.toNat).take 6 ≠ magicBytes)
    (hnoearly : ∀ k, k < secretText.length + 7 →
      ¬ delimChars.isSuffixOf ((secretText ++ delimChars).take k))
    (hbound : secretText.length + 7 ≤ 1000000) :
    decodeText (writeBits data (Legacy.textToBinary (secretText ++ delimChars)) 0)
      = .ok secretText := by
  set full := secretText ++ delimChars with hfull
  have hdcodes : ∀ c ∈ delimChars, 1 ≤ c.toNat ∧ c.toNat ≤ 255 := by decide
  have hfullcodes : ∀ c ∈ full, 1 ≤ c.toNat ∧ c.toNat ≤ 255 := by
    intro c hc
    rcases List.mem_append.mp hc with h | h
    · exact hcodes c h
    · exact hdcodes c h
  have hfulllen : full.length = secretText.length + 7 := by
    rw [hfull, List.length_append]
    rfl
  have hbits : Legacy.textToBinary full = bytesToBits (full.map Char.toNat) :=
    Legacy.textToBinary_bytes (fun c hc => (hfullcodes c hc).2)
  set B := bytesToBits (full.map Char.toNat) with hB
  have hcapbits := Legacy.capacity_le_bits_legacy hcap
  have hBlen : B.length = 8 * (secretText.length + 7) := by
    rw [hB, length_bytesToBits, List.length_map, hfulllen]
  have husable : (usableLSBs data 0).length = 3 * (width * height) :=
    length_usableLSBs (width * height) data hdata
  have hBle : B.length ≤ (usableLSBs data 0).length := by
    rw [hBlen, husable]
    omega
  set enc := writeBits data B 0 with henc
  rw [hbits, ← henc]
  have hu : dtUsable enc = B ++ (usableLSBs data 0).drop B.length := by
    rw [dtUsable, henc]
    exact usableLSBs_writeBits data B 0 (fun b hb => mem_bytesToBits_lt_two hb) hBle
  have hulen : (dtUsable enc).length = 3 * (width * height) := by
    rw [hu, List.length_append, List.length_drop, husable]
    omega
  have hchunklen : (dtHeaderChunks enc).length = 10 := by
    rw [dtHeaderChunks, chunk8_length ((dtUsable enc).take 80).length _ (le_refl _),
      List.length_take, hulen]
    have : min 80 (3 * (width * height)) = 80 := by omega
    rw [this]
  have hbytes256 : ∀ x ∈ full.map Char.toNat, x < 256 := by
    intro x hx
    rcases List.mem_map.mp hx with ⟨c, hc, hval⟩
    have := (hfullcodes c hc).2
    omega
  have hmag6 : (dtExtracted enc).take 6 = (full.map Char.toNat).take 6 := by
    set mb := full.map Char.toNat with hmb
    set rest2 := ((usableLSBs data 0).drop B.length).take (80 - B.length) with hrest2
    have hbs10len : (mb.take 10).length = min 10 (secretText.length + 7) := by
      rw [List.length_take, List.length_map, hfulllen, Nat.min_comm]
    have htk : (dtUsable enc).take 80 = bytesToBits (mb.take 10) ++ rest2 := by
      rw [hu, List.take_append_eq_append_take, hB,
        show (80 : Nat) = 8 * 10 from rfl, take_bytesToBits, hrest2]
    have hch : dtHeaderChunks enc = (mb.take 10).map byteToBits ++ chunk8 rest2 := by
      rw [dtHeaderChunks, htk, chunk8_bytesToBits]
    have htk10 : (dtHeaderChunks enc).take 10
        = (mb.take 10).map byteToBits
          ++ (chunk8 rest2).take (10 - ((mb.take 10).map byteToBits).length) := by
      rw [hch, List.take_append_eq_append_take,
        List.take_of_length_le (by rw [List.length_map, hbs10len]; omega)]
    have hext : dtExtracted enc
        = mb.take 10 ++ ((chunk8 rest2).take
            (10 - ((mb.take 10).map byteToBits).length)).map bitsToNat := by
      rw [dtExtracted, htk10, List.map_append,
        map_bitsToNat_byteToBits (fun x hx => hbytes256 x (List.mem_of_mem_take hx))]
    rw [hext, List.take_append_eq_append_take,
      show (6 : Nat) - (mb.take 10).length = 0 from by rw [hbs10len]; omega,
      List.take_zero, List.append_nil, List.take_take,
      show min 6 10 = 6 from rfl]
  have hne : dtMagic enc ≠ magicChars := by
    intro heq
    rw [dtMagic, hmag6] at heq
    have hinj := utf8DecodeAux_ascii_inj ((full.map Char.toNat).take 6).length
      ((full.map Char.toNat).take 6) magicChars (le_refl _) heq (by decide)
    apply hmagicne
    rw [hinj]
    rfl
  rw [decodeText, if_neg (by omega), if_pos hne, decodeLegacyFormat]
  have hu' : usableLSBs enc 0 = B ++ (usableLSBs data 0).drop B.length := hu
  have hchunks : chunk8 (usableLSBs enc 0)
      = full.map (fun c => byteToBits c.toNat) ++ chunk8 ((usableLSBs data 0).drop B.length) := by
    rw [hu', hB, chunk8_bytesToBits, List.map_map]
    rfl
  rw [hchunks]
  have hscan := legacyScan_payload full [] (chunk8 ((usableLSBs data 0).drop B.length)) full
    rfl hfullcodes (by rw [hfull]; simp [delimChars]) (by rw [hfulllen]; exact hnoearly)
    (List.isSuffixOf_iff_suffix.mpr (hfull ▸ List.suffix_append secretText delimChars))
    (by rw [hfulllen]; omega)
  rw [hscan, hfulllen, hfull]
  have : secretText.length + 7 - 7 = secretText.length := by omega
  rw [this, List.take_left' rfl]

end Stego

theorem utf8DecodeAux_zero : ∀ (f : Nat) (bs : List Nat), (∀ x ∈ bs, x = 0) →
    ∀ c ∈ utf8DecodeAux f bs, c = Char.ofNat 0 := by
  intro f
  induction f with
  | zero =>
    intro bs _ c hc
    cases bs with
    | nil => rw [utf8DecodeAux_nil] at hc; simp at hc
    | cons b tl => simp [utf8DecodeAux] at hc
  | succ f ih =>
    intro bs h c hc
    cases bs with
    | nil => rw [utf8DecodeAux_nil] at hc; simp at hc
    | cons b tl =>
      have hb : b = 0 := h b (List.mem_cons_self b tl)
      subst hb
      rw [utf8Step1 (by omega)] at hc
      rcases List.mem_cons.mp hc with h1 | h1
      · exact h1
      · exact ih tl (fun x hx => h x (List.mem_cons_of_mem _ hx)) c h1

theorem usableLSBs_replicate_zero : ∀ (n i : Nat) (x : Nat),
    x ∈ usableLSBs (List.replicate n 0) i → x = 0 := by
  intro n
  induction n with
  | zero => intro i x hx; simp [usableLSBs] at hx
  | succ n ih =>
    intro i x hx
    rw [List.replicate_succ] at hx
    simp only [usableLSBs] at hx
    split at hx
    · exact ih (i + 1) x hx
    · rcases List.mem_cons.mp hx with h | h
      · omega
      · exact ih (i + 1) x h

namespace Stego

theorem decodeText_replicate_zero (n : Nat) :
    decodeText (List.replicate n 0) = .error .noMessageFound := by
  set data := List.replicate n 0 with hdata
  have hu0 : ∀ x ∈ dtUsable data, x = 0 := by
    intro x hx
    exact usableLSBs_replicate_zero n 0 x hx
  by_cases hc : (dtHeaderChunks data).length < 10
  · rw [decodeText, if_pos hc]
  · have hext0 : ∀ x ∈ (dtExtracted data).take 6, x = 0 := by
      intro x hx
      have hx10 := List.mem_of_mem_take hx
      rw [dtExtracted] at hx10
      rcases List.mem_map.mp hx10 with ⟨chunk, hchunk, hval⟩
      have hchunk2 := List.mem_of_mem_take hchunk
      rw [dtHeaderChunks] at hchunk2
      have hzero : ∀ y ∈ chunk, y = 0 := by
        intro y hy
        exact hu0 y (List.mem_of_mem_take (mem_chunk8 hchunk2 hy))
      rw [← hval]
      exact bitsToNat_zero hzero
    have hmagic0 : ∀ ch ∈ dtMagic data, ch = Char.ofNat 0 := by
      intro ch hch
      exact utf8DecodeAux_zero _ _ hext0 ch hch
    have hne : dtMagic data ≠ magicChars := by
      intro heq
      have hS : ('S' : Char) ∈ dtMagic data := by
        rw [heq, magicChars]
        simp
      have := hmagic0 'S' hS
      exact absurd this (by decide)
    rw [decodeText, if_neg hc, if_pos hne, decodeLegacyFormat]
    apply legacyScan_zero
    intro chunk hchunk x hx
    exact hu0 x (mem_chunk8 hchunk hx)

end Stego

/-! ### The claims -/

namespace Stego

/-- C3 counterexample: `calculateCapacity` is not clamped at zero.  At width 0
(or height 0) it returns `-17`, not `0`, so the claim that it never returns a
negative value is false on the code. -/
theorem C3_counterexample :
    calculateCapacity 0 5 = -17 ∧ calculateCapacity 5 0 = -17 ∧ calculateCapacity 0 5 < 0 := by
  refine ⟨by decide, by decide, by decide⟩

/-- C3 (amended): `calculateCapacity` performs no clamping: it can be negative,
with `-17` (the floored quotient of minus the 136 overhead bits by 8) as its
least value; in particular `calculateCapacity 0 h = calculateCapacity w 0 = -17`
for every `w` and `h`. -/
theorem C3_capacity_no_clamp (width height : Nat) :
    calculateCapacity 0 height = -17
      ∧ calculateCapacity width 0 = -17
      ∧ -17 ≤ calculateCapacity width height := by
  refine ⟨?_, ?_, ?_⟩
  · rw [calculateCapacity]
    norm_num
    decide
  · rw [calculateCapacity]
    norm_num
    decide
  · rw [calculateCapacity, Int.fdiv_eq_ediv _ (by omega)]
    have h0 : (0 : Int) ≤ (width : Int) * (height : Int) * 3 := by positivity
    calc (-17 : Int) = -136 / 8 := by decide
      _ ≤ ((width : Int) * (height : Int) * 3 - 80 - 56) / 8 :=
          Int.ediv_le_ediv (by omega) (by omega)

/-- C5 counterexample: a 5-by-5 raster provides only 75 usable LSBs (fewer
than the 80 the claim says are required), yet when those 75 bits carry the
magic token followed by a small declared length, `decodeText` succeeds and
returns the empty string instead of failing with NoMessageFound. -/
theorem C5_counterexample :
    (dtUsable (writeBits (List.replicate 100 0)
        (bytesToBits magicBytes ++ List.replicate 24 0 ++ [1, 1, 1]) 0)).length = 75
      ∧ 75 < 80
      ∧ decodeText (writeBits (List.replicate 100 0)
          (bytesToBits magicBytes ++ List.replicate 24 0 ++ [1, 1, 1]) 0) = .ok [] := by
  refine ⟨by decide, by decide, by decide⟩

/-- C5 (amended): when the non-alpha samples provide at most 72 usable LSBs
(so that fewer than ten 8-bit groups form), `decodeText` fails with
NoMessageFound; with 73 to 79 bits the ten-group check already passes and
decode can proceed. -/
theorem C5_fewBits_noMessage {data : List Nat} (h : (dtUsable data).length ≤ 72) :
    decodeText data = .error .noMessageFound :=
  decodeText_noMessage h

/-- C5 witness. -/
theorem C5_fewBits_noMessage_witness :
    decodeText (List.replicate 8 0) = .error .noMessageFound :=
  C5_fewBits_noMessage (by decide)

/-- C6: a 10-by-10 raster has capacity exactly 20; `encodeText` succeeds on
every ASCII text of exactly 20 characters and fails with CapacityExceeded on
every ASCII text of 21 characters. -/
theorem C6_tenByTen (data : List Nat) (cs20 cs21 : List Char)
    (h20a : ∀ c ∈ cs20, c.toNat < 128) (h20l : cs20.length = 20)
    (h21a : ∀ c ∈ cs21, c.toNat < 128) (h21l : cs21.length = 21) :
    calculateCapacity 10 10 = 20
      ∧ (∃ out, encodeText data 10 10 cs20 = .ok out)
      ∧ encodeText data 10 10 cs21 = .error .capacityExceeded := by
  refine ⟨by decide, ⟨_, encodeText_eq_ok ?_⟩, encodeText_eq_error ?_⟩
  · rw [length_encodeBits, length_utf8Encode_ascii h20a, h20l]
    norm_num
  · rw [length_encodeBits, length_utf8Encode_ascii h21a, h21l]
    norm_num

/-- C6 witness. -/
theorem C6_tenByTen_witness :
    calculateCapacity 10 10 = 20
      ∧ (∃ out, encodeText (List.replicate 400 0) 10 10 (List.replicate 20 'a') = .ok out)
      ∧ encodeText (List.replicate 400 0) 10 10 (List.replicate 21 'b')
          = .error .capacityExceeded :=
  C6_tenByTen (List.replicate 400 0) (List.replicate 20 'a') (List.replicate 21 'b')
    (by decide) (by decide) (by decide) (by decide)

/-- C8: alpha preservation.  Whenever `encodeText` returns a buffer, every
sample at an index congruent to 3 mod 4 (the alpha channel) equals the
corresponding sample of the input raster. -/
theorem C8_alpha_preserved {data : List Nat} {width height : Nat} {secretText : List Char}
    {out : List Nat} (henc : encodeText data width height secretText = .ok out) :
    ∀ i, i % 4 = 3 → out.getD i 0 = data.getD i 0 := by
  simp only [encodeText] at henc
  split at henc
  · exact absurd henc (by simp)
  · intro i hi
    have hout : writeBits data (bytesToBits (totalBytesOf secretText)) 0 = out := by
      exact Except.ok.inj henc
    rw [← hout]
    exact getD_writeBits_alpha data (bytesToBits (totalBytesOf secretText)) 0 i (by omega)

set_option maxRecDepth 10000 in
/-- C8 witness. -/
theorem C8_alpha_preserved_witness :
    (writeBits (List.replicate 192 5) (bytesToBits (totalBytesOf [])) 0).getD 3 0
      = (List.replicate 192 5).getD 3 0 :=
  @C8_alpha_preserved (List.replicate 192 5) 12 4 []
    (writeBits (List.replicate 192 5) (bytesToBits (totalBytesOf [])) 0)
    (by decide) 3 (by decide)

end Stego

namespace Stego

set_option maxRecDepth 10000 in
/-- C2 counterexample: a raster whose current-format frame declares one
payload byte `0xFF` (invalid UTF-8).  The magic token matches and the length
is validated, yet `decodeText` does not fail: it returns the one-character
string U+FFFD produced by the non-fatal decoder. -/
theorem C2_counterexample :
    dtMagic (writeBits (List.replicate 120 0)
        (bytesToBits (magicBytes ++ [0, 0, 0, 1] ++ [255])) 0) = magicChars
      ∧ dtPayloadBytes (writeBits (List.replicate 120 0)
          (bytesToBits (magicBytes ++ [0, 0, 0, 1] ++ [255])) 0) = [255]
      ∧ decodeText (writeBits (List.replicate 120 0)
          (bytesToBits (magicBytes ++ [0, 0, 0, 1] ++ [255])) 0) = .ok [replChar] := by
  refine ⟨by decide, by decide, by decide⟩

/-- C2 (amended): on the current-format path (ten header groups formed, magic
matched, declared length validated) `decodeText` always succeeds; payload
bytes that are not valid UTF-8 are decoded with U+FFFD replacement characters
instead of raising an error — the code has no DecodeError path. -/
theorem C2_invalid_utf8_never_fails {data : List Nat}
    (h1 : ¬ (dtHeaderChunks data).length < 10)
    (h2 : dtMagic data = magicChars)
    (h3 : ¬ (dtMaxPossibleLength data < dtMessageLength data
      ∨ 10000000 < dtMessageLength data)) :
    ∃ s, decodeText data = .ok s := by
  rw [decodeText_current h1 h2 h3]
  split
  · exact ⟨_, rfl⟩
  · exact ⟨_, rfl⟩

set_option maxRecDepth 10000 in
/-- C2 witness. -/
theorem C2_invalid_utf8_never_fails_witness :
    ∃ s, decodeText (writeBits (List.replicate 120 0)
      (bytesToBits (magicBytes ++ [0, 0, 0, 1] ++ [68])) 0) = .ok s :=
  C2_invalid_utf8_never_fails (by decide) (by decide) (by decide)

set_option maxRecDepth 10000 in
/-- C4 counterexample: a 5-by-5 raster declaring payload length 5 on the
current-format path (validated, since 5 is below both ceilings) holds only 75
usable bits, fewer than the `(10 + 5) * 8 = 120` required; `decodeText`
still succeeds, returning a string decoded from 0 payload bytes instead of 5
— silent truncation. -/
theorem C4_counterexample :
    dtMessageLength (writeBits (List.replicate 100 0)
        (bytesToBits magicBytes ++ List.replicate 24 0 ++ [1, 0, 1]) 0) = 5
      ∧ ¬ (dtMaxPossibleLength (writeBits (List.replicate 100 0)
            (bytesToBits magicBytes ++ List.replicate 24 0 ++ [1, 0, 1]) 0)
          < dtMessageLength (writeBits (List.replicate 100 0)
            (bytesToBits magicBytes ++ List.replicate 24 0 ++ [1, 0, 1]) 0)
        ∨ 10000000 < dtMessageLength (writeBits (List.replicate 100 0)
            (bytesToBits magicBytes ++ List.replicate 24 0 ++ [1, 0, 1]) 0))
      ∧ (dtUsable (writeBits (List.replicate 100 0)
          (bytesToBits magicBytes ++ List.replicate 24 0 ++ [1, 0, 1]) 0)).length < (10 + 5) * 8
      ∧ (dtPayloadBytes (writeBits (List.replicate 100 0)
          (bytesToBits magicBytes ++ List.replicate 24 0 ++ [1, 0, 1]) 0)).length = 0
      ∧ decodeText (writeBits (List.replicate 100 0)
          (bytesToBits magicBytes ++ List.replicate 24 0 ++ [1, 0, 1]) 0) = .ok [] := by
  refine ⟨by decide, by decide, by decide, by decide, by decide⟩

/-- C4 (amended): decode errors are terminal (an error result carries no
text), and on the current-format path with a validated declared length `L`,
whenever the raster holds at least `(10 + L) * 8` usable bits the returned
string is decoded from exactly `L` extracted payload bytes; when the raster
holds fewer bits the payload is silently truncated to the available bytes
(as the counterexample shows). -/
theorem C4_exact_payload {data : List Nat}
    (h1 : ¬ (dtHeaderChunks data).length < 10)
    (h2 : dtMagic data = magicChars)
    (h3 : ¬ (dtMaxPossibleLength data < dtMessageLength data
      ∨ 10000000 < dtMessageLength data))
    (h4 : (10 + dtMessageLength data) * 8 ≤ (dtUsable data).length) :
    (dtPayloadBytes data).length = dtMessageLength data
      ∧ (decodeText data = .ok (dtMessage data)
        ∨ decodeText data
            = .ok ((dtMessage data).take ((dtMessage data).length - 7))) := by
  constructor
  · have htl : ((dtUsable data).take ((10 + dtMessageLength data) * 8)).length
        = (10 + dtMessageLength data) * 8 := by
      rw [List.length_take]
      omega
    have hcl : (dtAllBytes data).length = 10 + dtMessageLength data := by
      rw [dtAllBytes, chunk8_length _ _ (le_refl _), htl]
      omega
    rw [dtPayloadBytes, List.length_map, List.length_take, List.length_drop, hcl]
    omega
  · rw [decodeText_current h1 h2 h3]
    split
    · exact Or.inr rfl
    · exact Or.inl rfl

set_option maxRecDepth 10000 in
/-- C4 witness. -/
theorem C4_exact_payload_witness :
    (dtPayloadBytes (writeBits (List.replicate 192 0)
        (bytesToBits (magicBytes ++ [0, 0, 0, 2] ++ [66, 67])) 0)).length
      = dtMessageLength (writeBits (List.replicate 192 0)
          (bytesToBits (magicBytes ++ [0, 0, 0, 2] ++ [66, 67])) 0)
      ∧ (decodeText (writeBits (List.replicate 192 0)
            (bytesToBits (magicBytes ++ [0, 0, 0, 2] ++ [66, 67])) 0)
          = .ok (dtMessage (writeBits (List.replicate 192 0)
              (bytesToBits (magicBytes ++ [0, 0, 0, 2] ++ [66, 67])) 0))
        ∨ decodeText (writeBits (List.replicate 192 0)
              (bytesToBits (magicBytes ++ [0, 0, 0, 2] ++ [66, 67])) 0)
            = .ok ((dtMessage (writeBits (List.replicate 192 0)
                (bytesToBits (magicBytes ++ [0, 0, 0, 2] ++ [66, 67])) 0)).take
              ((dtMessage (writeBits (List.replicate 192 0)
                (bytesToBits (magicBytes ++ [0, 0, 0, 2] ++ [66, 67])) 0)).length - 7))) :=
  C4_exact_payload (by decide) (by decide) (by decide) (by decide)

/-- C9: on the current-format path with a validated length, when the decoded
payload string does not end with the delimiter token `decodeText` returns it
unchanged (no error), and when it does end with the delimiter exactly one
trailing occurrence is stripped before returning. -/
theorem C9_delimiter_advisory {data : List Nat}
    (h1 : ¬ (dtHeaderChunks data).length < 10)
    (h2 : dtMagic data = magicChars)
    (h3 : ¬ (dtMaxPossibleLength data < dtMessageLength data
      ∨ 10000000 < dtMessageLength data)) :
    (¬ delimChars.isSuffixOf (dtMessage data) → decodeText data = .ok (dtMessage data))
      ∧ (delimChars.isSuffixOf (dtMessage data) →
          decodeText data = .ok ((dtMessage data).take ((dtMessage data).length - 7))
            ∧ ((dtMessage data).take ((dtMessage data).length - 7)) ++ delimChars
                = dtMessage data) := by
  constructor
  · intro hn
    rw [decodeText_current h1 h2 h3, if_neg hn]
  · intro hy
    constructor
    · rw [decodeText_current h1 h2 h3, if_pos hy]
    · rcases List.isSuffixOf_iff_suffix.mp hy with ⟨p, hp⟩
      have htk : (dtMessage data).take ((dtMessage data).length - 7) = p := by
        rw [← hp]
        apply List.take_left'
        have h7 : delimChars.length = 7 := rfl
        rw [List.length_append]
        omega
      rw [htk, hp]

set_option maxRecDepth 10000 in
/-- C9 witness (the no-delimiter branch, payload "A"). -/
theorem C9_delimiter_advisory_witness :
    decodeText (writeBits (List.replicate 192 0)
        (bytesToBits (magicBytes ++ [0, 0, 0, 1] ++ [65])) 0)
      = .ok (dtMessage (writeBits (List.replicate 192 0)
          (bytesToBits (magicBytes ++ [0, 0, 0, 1] ++ [65])) 0)) :=
  (C9_delimiter_advisory (by decide) (by decide) (by decide)).1 (by decide)

/-- C10: in the legacy fallback scan a completed zero byte appends no
character (every byte 1..255 appends exactly one); consequently `decodeText`
of an all-zero raster fails with NoMessageFound, and a legacy payload
containing a NUL character is never reconstructed intact, because the legacy
decoder can only ever return NUL-free strings. -/
theorem C10_zero_byte_skipped :
    (∀ text : List Char, legacyStep text 0 = text)
      ∧ (∀ n : Nat, decodeText (List.replicate n 0) = .error .noMessageFound)
      ∧ (∀ (data : List Nat) (cs : List Char), Char.ofNat 0 ∈ cs →
          decodeLegacyFormat data ≠ .ok cs) := by
  refine ⟨legacyStep_zero, decodeText_replicate_zero, ?_⟩
  intro data cs hmem heq
  have hbits : ∀ c ∈ chunk8 (usableLSBs data 0), ∀ x ∈ c, x < 2 := by
    intro c hc x hx
    exact usableLSBs_lt_two data 0 x (mem_chunk8 hc hx)
  have := legacyScan_no_NUL (chunk8 (usableLSBs data 0)) [] cs hbits (by simp) heq
  exact this hmem

/-- C10 witness. -/
theorem C10_zero_byte_skipped_witness :
    legacyStep [] 0 = []
      ∧ decodeText (List.replicate 8 0) = .error .noMessageFound
      ∧ decodeLegacyFormat [0, 0, 0, 0] ≠ .ok [Char.ofNat 0] :=
  ⟨C10_zero_byte_skipped.1 [], C10_zero_byte_skipped.2.1 8,
    C10_zero_byte_skipped.2.2 [0, 0, 0, 0] [Char.ofNat 0] (by decide)⟩

end Stego

namespace Stego

theorem roundTrip_eq_decode {data : List Nat} {width height : Nat} {secretText : List Char}
    (hle : (bytesToBits (totalBytesOf secretText)).length ≤ width * height * 3) :
    roundTrip data width height secretText
      = decodeText (writeBits data (bytesToBits (totalBytesOf secretText)) 0) := by
  simp only [roundTrip]
  rw [encodeText_eq_ok hle]

/-- C1 (amended): the round trip holds under the stated hypotheses together
with the additional bound forced by the decoder's absolute length ceiling:
the framed byte count (UTF-8 length of the text plus the 7 delimiter bytes)
must not exceed 10,000,000, otherwise decode rejects the declared length. -/
theorem C1_round_trip {data : List Nat} {width height : Nat} {secretText : List Char}
    (hdata : data.length = 4 * (width * height))
    (hover : 136 ≤ width * height * 3)
    (hcap : ((utf8Encode secretText).length : Int) ≤ calculateCapacity width height)
    (hbound : (utf8Encode secretText).length + 7 ≤ 10000000) :
    roundTrip data width height secretText = .ok secretText := by
  have hfit := capacity_le_bits hcap
  rw [roundTrip_eq_decode (by rw [length_encodeBits]; omega),
    decodeText_writeBits hdata hfit (by omega), if_neg (by omega)]

set_option maxRecDepth 10000 in
/-- C1 witness. -/
theorem C1_round_trip_witness :
    roundTrip (List.replicate 196 0) 7 7 ['a'] = .ok ['a'] :=
  C1_round_trip (by decide) (by decide) (by decide) (by decide)

/-- C1 counterexample: the claim as stated is false for large inputs.  A
5200-by-5200 raster with a text of 10,000,000 ASCII bytes satisfies every
hypothesis of the claim (dimension overhead and capacity), the encoder
succeeds, but the decoder rejects the declared length
10,000,007 > 10,000,000 with InvalidLength, so the round trip does not
return the text. -/
theorem C1_counterexample :
    (List.replicate 108160000 (0 : Nat)).length = 4 * (5200 * 5200)
      ∧ 136 ≤ 5200 * 5200 * 3
      ∧ ((utf8Encode (List.replicate 10000000 'a')).length : Int)
          ≤ calculateCapacity 5200 5200
      ∧ roundTrip (List.replicate 108160000 0) 5200 5200 (List.replicate 10000000 'a')
          = .error .invalidLength
      ∧ Except.error StegoError.invalidLength
          ≠ Except.ok (List.replicate 10000000 'a') := by
  have hascii : ∀ c ∈ List.replicate 10000000 'a', c.toNat < 128 := by
    intro c hc
    rw [List.eq_of_mem_replicate hc]
    decide
  have hlen : (utf8Encode (List.replicate 10000000 'a')).length = 10000000 := by
    rw [length_utf8Encode_ascii hascii, List.length_replicate]
  refine ⟨?_, by norm_num, ?_, ?_, fun h => Except.noConfusion h⟩
  · rw [List.length_replicate]
  · rw [hlen, calculateCapacity, int_le_fdiv_iff]
    norm_num
  · have hdata : (List.replicate 108160000 (0 : Nat)).length = 4 * (5200 * 5200) := by
      rw [List.length_replicate]
    have hfit : 8 * (17 + (utf8Encode (List.replicate 10000000 'a')).length)
        ≤ 5200 * 5200 * 3 := by
      rw [hlen]
      norm_num
    have hsmall : (utf8Encode (List.replicate 10000000 'a')).length + 7 < 4294967296 := by
      rw [hlen]
      norm_num
    rw [roundTrip_eq_decode (by rw [length_encodeBits, hlen]; norm_num),
      decodeText_writeBits hdata hfit hsmall, if_pos (by rw [hlen]; norm_num)]

/-- C7 (amended): legacy compatibility holds for every text whose characters
have code units in 1..255, whose first six embedded bytes differ from the
magic token (otherwise decode takes the current-format path, as the
counterexample shows), which contains no early occurrence of the delimiter,
and whose length stays under the legacy safety ceiling; the legacy-encoded
buffer then decodes to the original text via the fallback path. -/
theorem C7_legacy_compat {data : List Nat} {width height : Nat} {secretText : List Char}
    (hdata : data.length = 4 * (width * height))
    (hcodes : ∀ c ∈ secretText, 1 ≤ c.toNat ∧ c.toNat ≤ 255)
    (hcap : (secretText.length : Int) + 7 ≤ Legacy.calculateCapacity width height)
    (hmagicne : ((secretText ++ delimChars).map Char.toNat).take 6 ≠ magicBytes)
    (hnoearly : ∀ k, k < secretText.length + 7 →
      ¬ delimChars.isSuffixOf ((secretText ++ delimChars).take k))
    (hbound : secretText.length + 7 ≤ 1000000) :
    Legacy.encodeText data width height secretText
        = .ok (writeBits data (Legacy.textToBinary (secretText ++ delimChars)) 0)
      ∧ decodeText (writeBits data (Legacy.textToBinary (secretText ++ delimChars)) 0)
          = .ok secretText :=
  ⟨Legacy.legacyEncode_ok hcap,
    legacy_roundTrip_main hdata hcodes hcap hmagicne hnoearly hbound⟩

set_option maxRecDepth 10000 in
/-- C7 witness (text "A" in an 8-by-5 raster). -/
theorem C7_legacy_compat_witness :
    Legacy.encodeText (List.replicate 160 0) 8 5 ['A']
        = .ok (writeBits (List.replicate 160 0)
            (Legacy.textToBinary (['A'] ++ delimChars)) 0)
      ∧ decodeText (writeBits (List.replicate 160 0)
            (Legacy.textToBinary (['A'] ++ delimChars)) 0)
          = .ok ['A'] :=
  C7_legacy_compat (by decide) (by decide) (by decide) (by decide)
    (by decide) (by decide)

set_option maxRecDepth 10000 in
/-- C7 counterexample: the claim as stated (for every text) is false.  The
text "STEGO1", legacy-encoded into a 6-by-9 raster, makes the current-format
magic check match; the four bytes after the magic then read as the
big-endian length 0x2424454E, which exceeds the absolute ceiling, so
`decodeText` fails with InvalidLength instead of returning "STEGO1" via the
legacy fallback. -/
theorem C7_counterexample :
    Legacy.encodeText (List.replicate 216 0) 6 9 ['S', 'T', 'E', 'G', 'O', '1']
        = .ok (writeBits (List.replicate 216 0)
            (Legacy.textToBinary (['S', 'T', 'E', 'G', 'O', '1'] ++ delimChars)) 0)
      ∧ decodeText (writeBits (List.replicate 216 0)
            (Legacy.textToBinary (['S', 'T', 'E', 'G', 'O', '1'] ++ delimChars)) 0)
          = .error .invalidLength := by
  refine ⟨by decide, by decide⟩

end Stego
